import Mathlib

/-!
Verification of the core algorithms of the `ai-trading-bot` repository:
the interval scorer and trade simulator of `common/signal_generation.py`
and the rolling train-predict loop of `scripts/generate_rolling_predictions.py`,
shallowly embedded in Lean 4.
-/

namespace TradingBot

/-! ### Trade simulator (`performance_score`, signal_generation.py lines 281-330)

The Python function walks the rows `(index, sell_signal, buy_signal, price)`
once, keeping a two-state mode flag `is_buy_mode` (initially `True`), running
totals and two event lists `longs` / `shorts`.  Prices and profits are modelled
as rationals. -/

/-- A trade event tuple `(index, is_buy_mode, price, profit)` as appended by
`performance_score` to the `longs` or `shorts` list. -/
structure TradeEvent where
  row_index : Nat
  mode_at_event : Bool
  price : ℚ
  profit : ℚ
  deriving Repr, DecidableEq

/-- The mutable local state of `performance_score` between two row iterations. -/
structure SimState where
  is_buy_mode : Bool
  performance_long : ℚ
  long_count : Nat
  long_profitable : Nat
  longs : List TradeEvent
  performance_short : ℚ
  short_count : Nat
  short_profitable : Nat
  shorts : List TradeEvent
  deriving Repr, DecidableEq

/-- The initial state of `performance_score`: `is_buy_mode = True`, all
totals zero, both event lists empty. -/
def initSimState : SimState :=
  { is_buy_mode := true
    performance_long := 0, long_count := 0, long_profitable := 0, longs := []
    performance_short := 0, short_count := 0, short_profitable := 0, shorts := [] }

/-- One row of the simulator input: `(sell_signal, buy_signal, price)`, in the
column order `df[[sell_signal_column, buy_signal_column, price_column]]` used
by `itertuples`. -/
structure SimRow where
  top_score : Bool
  bot_score : Bool
  price : ℚ
  deriving Repr, DecidableEq

/-- Python `longs[-1][2] - price if len(longs) > 0 else 0`: profit of a short trade
against the price of the last recorded long event. -/
def profitVsLastLong (longs : List TradeEvent) (price : ℚ) : ℚ :=
  match longs.getLast? with
  | some l => l.price - price
  | none => 0

/-- Python `price - shorts[-1][2] if len(shorts) > 0 else 0`: profit of a long trade
against the price of the last recorded short event. -/
def profitVsLastShort (shorts : List TradeEvent) (price : ℚ) : ℚ :=
  match shorts.getLast? with
  | some l => price - l.price
  | none => 0

/-- One loop iteration of `performance_score`: in buy mode a true buy signal
(`bot_score`) records a short trade with `profit = longs[-1][2] - price` (0 when
`longs` is empty) and flips the mode; in the other mode a true sell signal
(`top_score`) records a long trade with `profit = price - shorts[-1][2]`
(0 when `shorts` is empty) and flips back; all other rows change nothing. -/
def simStep (s : SimState) (row : Nat × SimRow) : SimState :=
  let (index, r) := row
  if s.is_buy_mode then
    if r.bot_score then
      let profit : ℚ := profitVsLastLong s.longs r.price
      { s with
          performance_short := s.performance_short + profit
          short_count := s.short_count + 1
          short_profitable := s.short_profitable + (if 0 < profit then 1 else 0)
          shorts := s.shorts ++ [⟨index, s.is_buy_mode, r.price, profit⟩]
          is_buy_mode := false }
    else s
  else
    if r.top_score then
      let profit : ℚ := profitVsLastShort s.shorts r.price
      { s with
          performance_long := s.performance_long + profit
          long_count := s.long_count + 1
          long_profitable := s.long_profitable + (if 0 < profit then 1 else 0)
          longs := s.longs ++ [⟨index, s.is_buy_mode, r.price, profit⟩]
          is_buy_mode := true }
    else s

/-- The function `performance_score`: one pass of `simStep` over the enumerated rows.  The
return value is the final state, whose fields are the returned tuple
`(performance_long, performance_short, long_count, short_count,
long_profitable, short_profitable, longs, shorts)`. -/
def performance_score (rows : List SimRow) : SimState :=
  (rows.enum).foldl simStep initSimState

/-- Zip three aligned columns (sell signal, buy signal, price) into rows,
mirroring `df[[sell_signal_column, buy_signal_column, price_column]]`. -/
def mkSimRows (sell buy : List Bool) (price : List ℚ) : List SimRow :=
  (sell.zip (buy.zip price)).map fun t => ⟨t.1, t.2.1, t.2.2⟩

/-- The concrete example input of the claim: `buy_signal=[F,T,F,F,T]`,
`sell_signal=[F,F,T,F,F]`, `price=[10,9,11,10,8]`. -/
def exampleSimRows : List SimRow :=
  mkSimRows [false, false, true, false, false] [false, true, false, false, true]
    [10, 9, 11, 10, 8]

/-- The bookkeeping invariant of the simulator state, strengthened with the
mode/length correlation that makes it inductive: in buy mode the two event
lists have equal length, otherwise `shorts` is one longer. -/
def SimInvariant (s : SimState) : Prop :=
  s.long_count = s.longs.length ∧
  s.short_count = s.shorts.length ∧
  s.performance_long = (s.longs.map TradeEvent.profit).sum ∧
  s.performance_short = (s.shorts.map TradeEvent.profit).sum ∧
  s.long_profitable ≤ s.long_count ∧
  s.short_profitable ≤ s.short_count ∧
  (if s.is_buy_mode then s.shorts.length = s.longs.length
   else s.shorts.length = s.longs.length + 1)

theorem simInvariant_init : SimInvariant initSimState := by
  simp [SimInvariant, initSimState]

theorem simStep_buy_hit (s : SimState) (i : Nat) (r : SimRow)
    (hm : s.is_buy_mode = true) (hb : r.bot_score = true) :
    simStep s (i, r) =
      { s with
          performance_short := s.performance_short + profitVsLastLong s.longs r.price
          short_count := s.short_count + 1
          short_profitable := s.short_profitable +
            (if 0 < profitVsLastLong s.longs r.price then 1 else 0)
          shorts := s.shorts ++ [⟨i, true, r.price, profitVsLastLong s.longs r.price⟩]
          is_buy_mode := false } := by
  simp [simStep, hm, hb]

theorem simStep_sell_hit (s : SimState) (i : Nat) (r : SimRow)
    (hm : s.is_buy_mode = false) (ht : r.top_score = true) :
    simStep s (i, r) =
      { s with
          performance_long := s.performance_long + profitVsLastShort s.shorts r.price
          long_count := s.long_count + 1
          long_profitable := s.long_profitable +
            (if 0 < profitVsLastShort s.shorts r.price then 1 else 0)
          longs := s.longs ++ [⟨i, false, r.price, profitVsLastShort s.shorts r.price⟩]
          is_buy_mode := true } := by
  simp [simStep, hm, ht]

theorem simStep_buy_noop (s : SimState) (i : Nat) (r : SimRow)
    (hm : s.is_buy_mode = true) (hb : r.bot_score = false) :
    simStep s (i, r) = s := by
  simp [simStep, hm, hb]

theorem simStep_sell_noop (s : SimState) (i : Nat) (r : SimRow)
    (hm : s.is_buy_mode = false) (ht : r.top_score = false) :
    simStep s (i, r) = s := by
  simp [simStep, hm, ht]

theorem simInvariant_step (s : SimState) (row : Nat × SimRow)
    (h : SimInvariant s) : SimInvariant (simStep s row) := by
  obtain ⟨h1, h2, h3, h4, h5, h6, h7⟩ := h
  obtain ⟨i, r⟩ := row
  cases hm : s.is_buy_mode with
  | true =>
    rw [hm] at h7; simp only [if_true] at h7
    cases hb : r.bot_score with
    | true =>
      rw [simStep_buy_hit s i r hm hb]
      refine ⟨h1, ?_, h3, ?_, h5, ?_, ?_⟩
      · simpa using h2
      · simp [h4]
      · show s.short_profitable + _ ≤ s.short_count + 1
        split <;> omega
      · simpa using h7
    | false => rw [simStep_buy_noop s i r hm hb]; exact ⟨h1, h2, h3, h4, h5, h6, by simp [hm, h7]⟩
  | false =>
    rw [hm] at h7; simp only [Bool.false_eq_true, if_false] at h7
    cases ht : r.top_score with
    | true =>
      rw [simStep_sell_hit s i r hm ht]
      refine ⟨?_, h2, ?_, h4, ?_, ?_, ?_⟩
      · simpa using h1
      · simp [h3]
      · show s.long_profitable + _ ≤ s.long_count + 1
        split <;> omega
      · exact h6
      · simpa using h7
    | false => rw [simStep_sell_noop s i r hm ht]; exact ⟨h1, h2, h3, h4, h5, h6, by simp [hm, h7]⟩

theorem simInvariant_foldl (l : List (Nat × SimRow)) (s : SimState)
    (h : SimInvariant s) : SimInvariant (l.foldl simStep s) := by
  induction l generalizing s with
  | nil => exact h
  | cons x xs ih => exact ih _ (simInvariant_step s x h)

/-- The simulator state after processing the first `n` rows of the input. -/
def prefixState (rows : List SimRow) (n : Nat) : SimState :=
  ((rows.enum).take n).foldl simStep initSimState

/-- C2: `performance_score` starts in mode WAIT_SELL_CLOSE (`is_buy_mode = true`)
and processes the aligned rows in exactly one pass of `simStep`; in buy mode a
true buy signal records a short trade with profit = last recorded long price -
current price (0 if no prior long exists), adds it to `performance_short`,
increments `short_count` (and `short_profitable` if the profit is positive),
appends the event to `shorts` and flips to WAIT_BUY_CLOSE; in the other mode a
true sell signal symmetrically records a long trade with profit = current price
- last recorded short price into the long totals and `longs`, flipping back;
every other row leaves the state unchanged.  On
`buy_signal=[F,T,F,F,T]`, `sell_signal=[F,F,T,F,F]`, `price=[10,9,11,10,8]` the
result is `performance_long=2`, `performance_short=3`, `long_count=1`,
`short_count=2`. -/
theorem performance_score_single_pass_spec :
    (∀ rows : List SimRow,
        performance_score rows = (rows.enum).foldl simStep initSimState) ∧
    initSimState.is_buy_mode = true ∧
    (∀ (s : SimState) (i : Nat) (r : SimRow),
      (s.is_buy_mode = true → r.bot_score = true →
        simStep s (i, r) =
          { s with
              performance_short :=
                s.performance_short + profitVsLastLong s.longs r.price
              short_count := s.short_count + 1
              short_profitable := s.short_profitable +
                (if 0 < profitVsLastLong s.longs r.price then 1 else 0)
              shorts :=
                s.shorts ++ [⟨i, true, r.price, profitVsLastLong s.longs r.price⟩]
              is_buy_mode := false }) ∧
      (s.is_buy_mode = false → r.top_score = true →
        simStep s (i, r) =
          { s with
              performance_long :=
                s.performance_long + profitVsLastShort s.shorts r.price
              long_count := s.long_count + 1
              long_profitable := s.long_profitable +
                (if 0 < profitVsLastShort s.shorts r.price then 1 else 0)
              longs :=
                s.longs ++ [⟨i, false, r.price, profitVsLastShort s.shorts r.price⟩]
              is_buy_mode := true }) ∧
      (s.is_buy_mode = true → r.bot_score = false → simStep s (i, r) = s) ∧
      (s.is_buy_mode = false → r.top_score = false → simStep s (i, r) = s)) ∧
    (performance_score exampleSimRows).performance_long = 2 ∧
    (performance_score exampleSimRows).performance_short = 3 ∧
    (performance_score exampleSimRows).long_count = 1 ∧
    (performance_score exampleSimRows).short_count = 2 := by
  refine ⟨fun rows => rfl, rfl, fun s i r =>
    ⟨simStep_buy_hit s i r, simStep_sell_hit s i r,
      simStep_buy_noop s i r, simStep_sell_noop s i r⟩, ?_, ?_, ?_, ?_⟩ <;>
    norm_num [performance_score, exampleSimRows, mkSimRows, List.enum,
      List.enumFrom, simStep, initSimState, profitVsLastLong, profitVsLastShort]

/-- Witness for C2: the buy-mode/buy-signal step of the theorem applied to the
initial state and a concrete row. -/
theorem performance_score_single_pass_spec_witness :
    simStep initSimState (0, ⟨false, true, (5 : ℚ)⟩) =
      { initSimState with
          performance_short := initSimState.performance_short +
            profitVsLastLong initSimState.longs (5 : ℚ)
          short_count := initSimState.short_count + 1
          short_profitable := initSimState.short_profitable +
            (if 0 < profitVsLastLong initSimState.longs (5 : ℚ) then 1 else 0)
          shorts := initSimState.shorts ++
            [⟨0, true, (5 : ℚ), profitVsLastLong initSimState.longs (5 : ℚ)⟩]
          is_buy_mode := false } :=
  (performance_score_single_pass_spec.2.2.1 initSimState 0 ⟨false, true, 5⟩).1 rfl rfl

/-- C10: after processing every prefix of the input rows, `long_count` equals
the length of `longs`, `short_count` equals the length of `shorts`, the two
performance totals equal the sums of the profit entries of the corresponding
event lists, the profitable counters are bounded by the trade counters, and
recorded trades strictly alternate starting with a short, so
`short_count - long_count` is 0 or 1. -/
theorem performance_score_invariants (rows : List SimRow) (n : Nat) :
    (prefixState rows n).long_count = (prefixState rows n).longs.length ∧
    (prefixState rows n).short_count = (prefixState rows n).shorts.length ∧
    (prefixState rows n).performance_long
      = ((prefixState rows n).longs.map TradeEvent.profit).sum ∧
    (prefixState rows n).performance_short
      = ((prefixState rows n).shorts.map TradeEvent.profit).sum ∧
    (prefixState rows n).long_profitable ≤ (prefixState rows n).long_count ∧
    (prefixState rows n).short_profitable ≤ (prefixState rows n).short_count ∧
    ((prefixState rows n).short_count = (prefixState rows n).long_count ∨
      (prefixState rows n).short_count = (prefixState rows n).long_count + 1) := by
  have h : SimInvariant (prefixState rows n) :=
    simInvariant_foldl ((rows.enum).take n) initSimState simInvariant_init
  obtain ⟨h1, h2, h3, h4, h5, h6, h7⟩ := h
  refine ⟨h1, h2, h3, h4, h5, h6, ?_⟩
  split at h7 <;> omega

/-! ### Window scheduler (`generate_rolling_predictions.py`, main)

The rolling loop `for step in range(steps)` computes, per step,
`predict_start = prediction_start + step * stride`, `predict_end =
predict_start + stride` (lines 159-160) and the training span
`train_end = predict_start - label_horizon - 1`,
`train_start = 0 if train_end - train_length < 0 else train_end - train_length`
(lines 187-189).  Python integers are modelled as `ℤ`. -/

/-- One window's four row-index offsets. -/
structure WindowDescriptor where
  train_start : ℤ
  train_end : ℤ
  predict_start : ℤ
  predict_end : ℤ
  deriving Repr, DecidableEq

/-- The window computed by iteration `step` of the rolling loop. -/
def mkWindow (prediction_start stride label_horizon train_length : ℤ)
    (step : ℕ) : WindowDescriptor :=
  let predict_start : ℤ := prediction_start + step * stride
  let predict_end : ℤ := predict_start + stride
  let train_end : ℤ := predict_start - label_horizon - 1
  let train_start : ℤ := train_end - train_length
  let train_start : ℤ := if train_start < 0 then 0 else train_start
  { train_start := train_start, train_end := train_end
    predict_start := predict_start, predict_end := predict_end }

/-- The sequence of windows of a whole rolling run (`for step in range(steps)`). -/
def rollingWindows (prediction_start stride label_horizon train_length : ℤ)
    (steps : ℕ) : List WindowDescriptor :=
  (List.range steps).map (mkWindow prediction_start stride label_horizon train_length)

/-- Lines 141-144: `steps = P.prediction_count` and, when that is `None` or
`0` (Python `if not steps`), `steps = (len(df) - prediction_start) // stride`;
Python `//` is floor division, i.e. `Int.fdiv`. -/
def computeSteps (N prediction_start stride : ℤ) (prediction_count : Option ℤ) : ℤ :=
  match prediction_count with
  | some c => if c = 0 then (N - prediction_start).fdiv stride else c
  | none => (N - prediction_start).fdiv stride

/-- Lines 145-146: `raise ValueError` when
`len(df) - prediction_start < steps * stride`. -/
def checkSteps (N prediction_start stride steps : ℤ) : Except String ℤ :=
  if N - prediction_start < steps * stride then
    Except.error "Number of steps is too high (not enough data after start)"
  else Except.ok steps

/-- The configuration phase of the rolling run followed by window generation:
the step-count check precedes the train-predict loop, so a configuration
failure is raised before any training starts.  `range(steps)` of a
non-positive Python int is empty, hence `Int.toNat`. -/
def rollingRunWindows (N prediction_start stride label_horizon train_length : ℤ)
    (prediction_count : Option ℤ) : Except String (List WindowDescriptor) := do
  let steps ← checkSteps N prediction_start stride
    (computeSteps N prediction_start stride prediction_count)
  return rollingWindows prediction_start stride label_horizon train_length steps.toNat

theorem mkWindow_predict_start (ps stride lh tl : ℤ) (i : ℕ) :
    (mkWindow ps stride lh tl i).predict_start = ps + i * stride := rfl

theorem mkWindow_predict_end (ps stride lh tl : ℤ) (i : ℕ) :
    (mkWindow ps stride lh tl i).predict_end = ps + i * stride + stride := rfl

/-- Two prediction windows of the same stride grid that share a row index are
the same window. -/
theorem grid_disjoint (ps stride : ℤ) (hs : 0 < stride) (i j : ℕ) (r : ℤ)
    (hi₁ : ps + i * stride ≤ r) (hi₂ : r < ps + i * stride + stride)
    (hj₁ : ps + j * stride ≤ r) (hj₂ : r < ps + j * stride + stride) : i = j := by
  rcases lt_trichotomy i j with h | h | h
  · exfalso
    have hij : (i : ℤ) + 1 ≤ (j : ℤ) := by exact_mod_cast h
    have : ((i : ℤ) + 1) * stride ≤ (j : ℤ) * stride :=
      mul_le_mul_of_nonneg_right hij hs.le
    nlinarith
  · exact h
  · exfalso
    have hji : (j : ℤ) + 1 ≤ (i : ℤ) := by exact_mod_cast h
    have : ((j : ℤ) + 1) * stride ≤ (i : ℤ) * stride :=
      mul_le_mul_of_nonneg_right hji hs.le
    nlinarith

/-- C3: for every valid configuration, the rolling loop produces exactly
`steps` windows; window `i` predicts `[prediction_start + i*stride,
prediction_start + i*stride + stride)`; consecutive windows are contiguous;
distinct windows are disjoint; and the union of the prediction windows is
exactly the `steps * stride` rows starting at `prediction_start`. -/
theorem rollingWindows_partition (N ps stride lh tl : ℤ) (steps : ℕ)
    (hs : 0 < stride) (_hdata : (steps : ℤ) * stride ≤ N - ps) :
    (rollingWindows ps stride lh tl steps).length = steps ∧
    (∀ i : ℕ, i < steps →
      (rollingWindows ps stride lh tl steps)[i]? = some (mkWindow ps stride lh tl i)) ∧
    (∀ i : ℕ, (mkWindow ps stride lh tl i).predict_start = ps + i * stride ∧
      (mkWindow ps stride lh tl i).predict_end = ps + i * stride + stride) ∧
    (∀ i : ℕ, (mkWindow ps stride lh tl (i + 1)).predict_start
        = (mkWindow ps stride lh tl i).predict_end) ∧
    (∀ i j : ℕ, ∀ r : ℤ, i < steps → j < steps →
      (mkWindow ps stride lh tl i).predict_start ≤ r →
      r < (mkWindow ps stride lh tl i).predict_end →
      (mkWindow ps stride lh tl j).predict_start ≤ r →
      r < (mkWindow ps stride lh tl j).predict_end → i = j) ∧
    (∀ r : ℤ,
      (∃ i : ℕ, i < steps ∧ (mkWindow ps stride lh tl i).predict_start ≤ r ∧
        r < (mkWindow ps stride lh tl i).predict_end) ↔
      (ps ≤ r ∧ r < ps + steps * stride)) := by
  refine ⟨by simp [rollingWindows], ?_, ?_, ?_, ?_, ?_⟩
  · intro i hi
    simp [rollingWindows, List.getElem?_map, List.getElem?_range hi]
  · intro i
    exact ⟨rfl, rfl⟩
  · intro i
    rw [mkWindow_predict_start, mkWindow_predict_end]
    push_cast
    ring
  · intro i j r hi hj h1 h2 h3 h4
    rw [mkWindow_predict_start] at h1 h3
    rw [mkWindow_predict_end] at h2 h4
    exact grid_disjoint ps stride hs i j r h1 h2 h3 h4
  · intro r
    constructor
    · rintro ⟨i, hi, h1, h2⟩
      rw [mkWindow_predict_start] at h1
      rw [mkWindow_predict_end] at h2
      have hnn : (0 : ℤ) ≤ (i : ℤ) * stride :=
        mul_nonneg (Int.natCast_nonneg i) hs.le
      have hlt : (i : ℤ) + 1 ≤ (steps : ℤ) := by exact_mod_cast hi
      have : ((i : ℤ) + 1) * stride ≤ (steps : ℤ) * stride :=
        mul_le_mul_of_nonneg_right hlt hs.le
      constructor
      · linarith
      · nlinarith
    · rintro ⟨h1, h2⟩
      have hq0 : 0 ≤ (r - ps) / stride := Int.ediv_nonneg (by linarith) hs.le
      refine ⟨((r - ps) / stride).toNat, ?_, ?_, ?_⟩
      · have : (r - ps) / stride < (steps : ℤ) :=
          (Int.ediv_lt_iff_lt_mul hs).mpr (by linarith)
        omega
      · rw [mkWindow_predict_start, Int.toNat_of_nonneg hq0]
        have := Int.ediv_mul_le (r - ps) hs.ne'
        linarith
      · rw [mkWindow_predict_end, Int.toNat_of_nonneg hq0]
        have := Int.lt_ediv_add_one_mul_self (r - ps) hs
        nlinarith [this]

/-- Closed witness for C3 at `N = 10`, `prediction_start = 1`, `stride = 2`,
`steps = 4`: the configuration is valid and the four windows tile
`[1, 9)`. -/
theorem rollingWindows_partition_witness :
    (rollingWindows 1 2 3 4 4).length = 4 ∧
    (∃ i : ℕ, i < 4 ∧ (mkWindow 1 2 3 4 i).predict_start ≤ 6 ∧
      (6 : ℤ) < (mkWindow 1 2 3 4 i).predict_end) := by
  have h := rollingWindows_partition 10 1 2 3 4 4 (by norm_num) (by norm_num)
  exact ⟨h.1, (h.2.2.2.2.2 6).mpr (by norm_num)⟩

/-- C4: for every window, `train_end = predict_start - horizon - 1` (hence the
embargo inequality holds) and `train_start = max(0, train_end - train_length)`;
an early window whose clamped training history is shorter than `train_length`
is still produced by the loop, not rejected. -/
theorem mkWindow_embargo (ps stride lh tl : ℤ) (i : ℕ) :
    (mkWindow ps stride lh tl i).train_end
        = (mkWindow ps stride lh tl i).predict_start - lh - 1 ∧
    (mkWindow ps stride lh tl i).train_start
        = max 0 ((mkWindow ps stride lh tl i).train_end - tl) ∧
    (mkWindow ps stride lh tl i).train_end
        ≤ (mkWindow ps stride lh tl i).predict_start - lh - 1 ∧
    ((mkWindow ps stride lh tl i).train_end - tl < 0 →
      (mkWindow ps stride lh tl i).train_start = 0) ∧
    (∀ steps : ℕ, i < steps →
      (rollingWindows ps stride lh tl steps)[i]? = some (mkWindow ps stride lh tl i)) := by
  refine ⟨rfl, ?_, le_refl _, ?_, ?_⟩
  · show (if ps + i * stride - lh - 1 - tl < 0 then 0 else ps + i * stride - lh - 1 - tl)
        = max 0 (ps + i * stride - lh - 1 - tl)
    rcases lt_or_le (ps + i * stride - lh - 1 - tl) 0 with h | h
    · rw [if_pos h, max_eq_left h.le]
    · rw [if_neg (not_lt.mpr h), max_eq_right h]
  · intro h
    show (if ps + i * stride - lh - 1 - tl < 0 then 0 else ps + i * stride - lh - 1 - tl) = 0
    exact if_pos h
  · intro steps hi
    simp [rollingWindows, List.getElem?_map, List.getElem?_range hi]

/-- C7: the run fails with a configuration error exactly when
`N - prediction_start < steps * stride`; the check precedes window generation
(and hence all training), and a successful check yields exactly `steps`
windows, never a truncated evaluation; when `prediction_count` is absent or
zero, `steps` is computed as `(N - prediction_start) // stride`, and then the
check passes. -/
theorem configuration_error_spec (N ps stride lh tl : ℤ) (hs : 0 < stride) :
    (∀ pc : Option ℤ,
      ((∃ e, rollingRunWindows N ps stride lh tl pc = Except.error e) ↔
        N - ps < computeSteps N ps stride pc * stride)) ∧
    (∀ pc : Option ℤ, ∀ ws, rollingRunWindows N ps stride lh tl pc = Except.ok ws →
      ws.length = (computeSteps N ps stride pc).toNat) ∧
    (∀ pc : Option ℤ, pc = none ∨ pc = some 0 →
      computeSteps N ps stride pc = (N - ps).fdiv stride ∧
      rollingRunWindows N ps stride lh tl pc
        = Except.ok (rollingWindows ps stride lh tl ((N - ps).fdiv stride).toNat)) := by
  have hpass : ∀ pc : Option ℤ, pc = none ∨ pc = some 0 →
      computeSteps N ps stride pc = (N - ps).fdiv stride := by
    rintro pc (rfl | rfl)
    · rfl
    · simp [computeSteps]
  have hfd : ¬(N - ps < (N - ps).fdiv stride * stride) := by
    rw [Int.fdiv_eq_ediv _ hs.le, not_lt]
    exact Int.ediv_mul_le _ hs.ne'
  refine ⟨?_, ?_, ?_⟩
  · intro pc
    unfold rollingRunWindows checkSteps
    split
    · simp_all
    · simp_all
  · intro pc ws hws
    unfold rollingRunWindows checkSteps at hws
    split at hws
    · simp [Bind.bind, Except.bind] at hws
    · simp only [Bind.bind, Except.bind, pure, Except.pure] at hws
      cases hws
      simp [rollingWindows]
  · intro pc hpc
    refine ⟨hpass pc hpc, ?_⟩
    unfold rollingRunWindows checkSteps
    rw [hpass pc hpc]
    rw [if_neg hfd]
    rfl

/-- Closed witness for C7: with `N = 10`, `prediction_start = 0`,
`stride = 3`, a requested `prediction_count = 4` fails (only 10 rows for 12)
while an absent `prediction_count` is computed as `10 // 3 = 3` and passes. -/
theorem configuration_error_spec_witness :
    (∃ e, rollingRunWindows 10 0 3 1 5 (some 4) = Except.error e) ∧
    rollingRunWindows 10 0 3 1 5 none = Except.ok (rollingWindows 0 3 1 5 3) := by
  have h := configuration_error_spec 10 0 3 1 5 (by norm_num)
  constructor
  · exact (h.1 (some 4)).mpr (by norm_num [computeSteps])
  · have h3 := (h.2.2 none (Or.inl rfl)).2
    have : ((10 : ℤ) - 0).fdiv 3 = 3 := by decide
    rw [this] at h3
    exact h3

/-- Closed witness for C4: the first window of a run with
`prediction_start = 5`, `horizon = 2`, `train_length = 100` has
`train_end = 2` and a clamped `train_start = 0`, and is produced. -/
theorem mkWindow_embargo_witness :
    (mkWindow 5 3 2 100 0).train_end = 2 ∧
    (mkWindow 5 3 2 100 0).train_start = 0 ∧
    (rollingWindows 5 3 2 100 1)[0]? = some (mkWindow 5 3 2 100 0) := by
  have h := mkWindow_embargo 5 3 2 100 0
  refine ⟨by norm_num [mkWindow], h.2.2.2.1 (by norm_num [mkWindow]), ?_⟩
  exact h.2.2.2.2 1 (by norm_num)

/-! ### Parallel trainer dispatcher (`generate_rolling_predictions.py`, lines 199-227)

Per label, the code submits one `train_predict_*` task per configured
algorithm to a `ProcessPoolExecutor` (insertion into the `execution_results`
dict in the fixed order gb, nn, lc), then iterates `execution_results.items()`
— dict insertion order, i.e. submission order — calling `future.result()`,
which returns the task's memoized value or re-raises its exception, whatever
the order in which the pool completed the tasks.  A raised exception
propagates out of `main`, so the window and the whole run abort.

A trainer adapter is a function from `(algorithm, label, step)` to the
predicted column or an error; the worker-pool size `W` and the completion
order `order` are explicit parameters of the model. -/

/-- A trainer adapter: `train_predict(X_train, y_train, X_test, config)` for
algorithm `a`, label `l`, window `step`.  A Lean function, hence
deterministic. -/
def TrainerAdapter : Type := String → String → Nat → Except String (List ℚ)

/-- The fixed submission order of algorithm tasks in the dispatch loop:
gb, nn, lc, each when configured in `P.algorithms`. -/
def algoSubmissionOrder (algorithms : List String) : List String :=
  ["gb", "nn", "lc"].filter (fun a => algorithms.contains a)

/-- One label's submissions: the `(score_column_name, task)` pairs inserted
into `execution_results`, keyed `label + name_tag + algorithm`. -/
def submissions (algorithms : List String) (name_tag label : String) (step : Nat)
    (trainer : TrainerAdapter) : List (String × Except String (List ℚ)) :=
  (algoSubmissionOrder algorithms).map fun a => (label ++ name_tag ++ a, trainer a label step)

/-- The pool's finished futures, listed in the order `order` in which the
workers happened to complete them (`order` indexes into the submission
list). -/
def completedResults (subs : List (String × Except String (List ℚ)))
    (order : List Nat) : List (String × Except String (List ℚ)) :=
  order.filterMap fun i => subs[i]?

/-- The call `future.result()` for the future stored under `name`: the memoized
outcome of that task, retrieved from the finished futures. -/
def futureResult (completed : List (String × Except String (List ℚ)))
    (name : String) : Option (Except String (List ℚ)) :=
  (completed.find? (fun p => p.1 == name)).map Prod.snd

/-- The collection loop `for score_column_name, future in
execution_results.items()`: columns are assigned in submission (dict
insertion) order; a task's exception re-raised by `future.result()`
propagates and discards the partially assigned table. -/
def collectColumns (subs : List (String × Except String (List ℚ)))
    (completed : List (String × Except String (List ℚ))) :
    Except String (List (String × List ℚ)) :=
  match subs with
  | [] => Except.ok []
  | (n, _) :: rest =>
    match futureResult completed n with
    | none => Except.error "future not completed"
    | some (Except.error e) => Except.error e
    | some (Except.ok v) =>
      match collectColumns rest completed with
      | Except.error e => Except.error e
      | Except.ok t => Except.ok ((n, v) :: t)

/-- One label's dispatch: submit, let the pool of size `W` finish the tasks
in order `order`, and collect the columns. -/
def dispatchLabel (W : Nat) (order : List Nat) (algorithms : List String)
    (name_tag label : String) (step : Nat) (trainer : TrainerAdapter) :
    Except String (List (String × List ℚ)) :=
  let _ := W
  let subs := submissions algorithms name_tag label step trainer
  collectColumns subs (completedResults subs order)

/-- One window's dispatch: the loop `for label in labels`, concatenating each
label's prediction columns into `predict_labels_df` in label iteration
order. -/
def dispatchWindow (W : Nat) (order : String → List Nat) (algorithms : List String)
    (name_tag : String) (labels : List String) (step : Nat) (trainer : TrainerAdapter) :
    Except String (List (String × List ℚ)) :=
  match labels with
  | [] => Except.ok []
  | l :: rest =>
    match dispatchLabel W (order l) algorithms name_tag l step trainer with
    | Except.error e => Except.error e
    | Except.ok cols =>
      match dispatchWindow W order algorithms name_tag rest step trainer with
      | Except.error e => Except.error e
      | Except.ok t => Except.ok (cols ++ t)

/-- The window-by-window loop: each window's prediction table is appended to
the accumulated `labels_hat_df`; a propagating exception aborts the loop. -/
def runWindows (W : Nat) (order : Nat → String → List Nat) (algorithms : List String)
    (name_tag : String) (labels : List String) (trainer : TrainerAdapter) :
    List Nat → Except String (List (List (String × List ℚ)))
  | [] => Except.ok []
  | step :: rest =>
    match dispatchWindow W (order step) algorithms name_tag labels step trainer with
    | Except.error e => Except.error e
    | Except.ok t =>
      match runWindows W order algorithms name_tag labels trainer rest with
      | Except.error e => Except.error e
      | Except.ok ts => Except.ok (t :: ts)

/-- The rolling run's stored artifact: the per-window prediction tables of
`for step in range(steps)`, stored only after the last window completes; any
propagating exception aborts with no stored output. -/
def rollingRun (W : Nat) (order : Nat → String → List Nat) (algorithms : List String)
    (name_tag : String) (labels : List String) (steps : Nat) (trainer : TrainerAdapter) :
    Except String (List (List (String × List ℚ))) :=
  runWindows W order algorithms name_tag labels trainer (List.range steps)

/-- The reference sequential collection: each task's own outcome, in
submission order. -/
def collectDirect : List (String × Except String (List ℚ)) →
    Except String (List (String × List ℚ))
  | [] => Except.ok []
  | (n, r) :: rest =>
    match r with
    | Except.error e => Except.error e
    | Except.ok v =>
      match collectDirect rest with
      | Except.error e => Except.error e
      | Except.ok t => Except.ok ((n, v) :: t)

theorem filterMap_getElem_range {α : Type} (l : List α) :
    (List.range l.length).filterMap (fun i => l[i]?) = l := by
  induction l using List.reverseRecOn with
  | nil => rfl
  | append_singleton xs x ih =>
    rw [List.length_append, List.length_singleton, List.range_succ,
      List.filterMap_append]
    have h1 : (List.range xs.length).filterMap (fun i => (xs ++ [x])[i]?)
        = (List.range xs.length).filterMap (fun i => xs[i]?) := by
      apply List.filterMap_congr
      intro i hi
      rw [List.mem_range] at hi
      rw [List.getElem?_append_left hi]
    rw [h1, ih]
    simp

theorem completedResults_perm (subs : List (String × Except String (List ℚ)))
    (order : List Nat) (horder : order.Perm (List.range subs.length)) :
    (completedResults subs order).Perm subs := by
  unfold completedResults
  have := List.Perm.filterMap (fun i => subs[i]?) horder
  rw [filterMap_getElem_range] at this
  exact this

theorem key_unique {β : Type} (l : List (String × β))
    (hnd : (l.map Prod.fst).Nodup) (n : String) (r : β) (hmem : (n, r) ∈ l) :
    ∀ x ∈ l, x.1 = n → x = (n, r) := by
  induction l with
  | nil => cases hmem
  | cons h t ih =>
    rw [List.map_cons, List.nodup_cons] at hnd
    rcases List.mem_cons.mp hmem with heq | hmem'
    · intro x hx hxn
      rcases List.mem_cons.mp hx with rfl | hx'
      · rw [← heq]
      · exfalso
        apply hnd.1
        rw [show h.1 = n from by rw [← heq]]
        exact List.mem_map.mpr ⟨x, hx', hxn⟩
    · intro x hx hxn
      rcases List.mem_cons.mp hx with rfl | hx'
      · exfalso
        apply hnd.1
        rw [List.mem_map]
        exact ⟨(n, r), hmem', (congrArg Prod.fst rfl).trans hxn.symm⟩
      · exact ih hnd.2 hmem' x hx' hxn

theorem futureResult_of_perm (subs completed : List (String × Except String (List ℚ)))
    (hperm : completed.Perm subs) (hnd : (subs.map Prod.fst).Nodup)
    (n : String) (r : Except String (List ℚ)) (hmem : (n, r) ∈ subs) :
    futureResult completed n = some r := by
  unfold futureResult
  have hmem' : (n, r) ∈ completed := hperm.mem_iff.mpr hmem
  have hsome : (completed.find? (fun p => p.1 == n)).isSome := by
    rw [List.find?_isSome]
    exact ⟨(n, r), hmem', by simp⟩
  rcases Option.isSome_iff_exists.mp hsome with ⟨a, ha⟩
  have hpa : a.1 = n := by
    have := List.find?_some ha
    simpa using this
  have hamem : a ∈ subs := hperm.mem_iff.mp (List.mem_of_find?_eq_some ha)
  have : a = (n, r) := key_unique subs hnd n r hmem a hamem hpa
  rw [ha, this]
  rfl

theorem collectColumns_eq_direct (subs completed : List (String × Except String (List ℚ)))
    (h : ∀ p ∈ subs, futureResult completed p.1 = some p.2) :
    collectColumns subs completed = collectDirect subs := by
  induction subs with
  | nil => rfl
  | cons p rest ih =>
    obtain ⟨n, r⟩ := p
    have hn : futureResult completed n = some r := h (n, r) (List.mem_cons_self (n, r) rest)
    unfold collectColumns collectDirect
    rw [hn]
    have ht := ih (fun q hq => h q (List.mem_cons_of_mem _ hq))
    cases r with
    | error e => rfl
    | ok v => rw [ht]

theorem string_append_cancel_left (s a b : String) (h : s ++ a = s ++ b) : a = b := by
  apply String.ext
  have : (s ++ a).data = (s ++ b).data := by rw [h]
  rw [String.data_append, String.data_append] at this
  exact List.append_cancel_left this

theorem submissions_keys_nodup (algorithms : List String) (name_tag label : String)
    (step : Nat) (trainer : TrainerAdapter) :
    ((submissions algorithms name_tag label step trainer).map Prod.fst).Nodup := by
  unfold submissions
  rw [List.map_map]
  have hinj : ∀ a b : String, label ++ name_tag ++ a = label ++ name_tag ++ b → a = b := by
    intro a b hab
    rw [String.append_assoc, String.append_assoc] at hab
    exact string_append_cancel_left name_tag a b
      (string_append_cancel_left label _ _ hab)
  have hbase : (algoSubmissionOrder algorithms).Nodup := by
    unfold algoSubmissionOrder
    exact List.Nodup.filter _ (by decide)
  exact List.Nodup.map (fun a b h => hinj a b h) hbase

/-- Per-label dispatch equals the sequential reference collection, whatever
the worker-pool size and completion order: the key determinism lemma. -/
theorem dispatchLabel_eq_direct (W : Nat) (order : List Nat) (algorithms : List String)
    (name_tag label : String) (step : Nat) (trainer : TrainerAdapter)
    (horder : order.Perm (List.range (algoSubmissionOrder algorithms).length)) :
    dispatchLabel W order algorithms name_tag label step trainer
      = collectDirect (submissions algorithms name_tag label step trainer) := by
  unfold dispatchLabel
  apply collectColumns_eq_direct
  intro p hp
  have hlen : (submissions algorithms name_tag label step trainer).length
      = (algoSubmissionOrder algorithms).length := by
    unfold submissions; rw [List.length_map]
  apply futureResult_of_perm _ _
    (completedResults_perm _ order (hlen ▸ horder))
    (submissions_keys_nodup algorithms name_tag label step trainer) p.1 p.2
  exact hp

/-- The sequential reference of one window's dispatch: label by label, each
label's tasks collected directly in submission order. -/
def dispatchWindowDirect (algorithms : List String) (name_tag : String)
    (labels : List String) (step : Nat) (trainer : TrainerAdapter) :
    Except String (List (String × List ℚ)) :=
  match labels with
  | [] => Except.ok []
  | l :: rest =>
    match collectDirect (submissions algorithms name_tag l step trainer) with
    | Except.error e => Except.error e
    | Except.ok cols =>
      match dispatchWindowDirect algorithms name_tag rest step trainer with
      | Except.error e => Except.error e
      | Except.ok t => Except.ok (cols ++ t)

theorem dispatchWindow_eq_direct (W : Nat) (order : String → List Nat)
    (algorithms : List String) (name_tag : String) (labels : List String)
    (step : Nat) (trainer : TrainerAdapter)
    (horder : ∀ l, (order l).Perm (List.range (algoSubmissionOrder algorithms).length)) :
    dispatchWindow W order algorithms name_tag labels step trainer
      = dispatchWindowDirect algorithms name_tag labels step trainer := by
  induction labels with
  | nil => rfl
  | cons l rest ih =>
    unfold dispatchWindow dispatchWindowDirect
    rw [dispatchLabel_eq_direct W (order l) algorithms name_tag l step trainer (horder l), ih]

theorem collectDirect_ok_names (subs : List (String × Except String (List ℚ)))
    (cols : List (String × List ℚ)) (h : collectDirect subs = Except.ok cols) :
    cols.map Prod.fst = subs.map Prod.fst := by
  induction subs generalizing cols with
  | nil => cases h; rfl
  | cons p rest ih =>
    obtain ⟨n, r⟩ := p
    unfold collectDirect at h
    cases r with
    | error e => cases h
    | ok v =>
      cases hrest : collectDirect rest with
      | error e => rw [hrest] at h; cases h
      | ok t => rw [hrest] at h; cases h; simp [ih t hrest]

theorem collectDirect_ok_tasks (subs : List (String × Except String (List ℚ)))
    (cols : List (String × List ℚ)) (h : collectDirect subs = Except.ok cols) :
    ∀ p ∈ subs, ∃ v, p.2 = Except.ok v ∧ (p.1, v) ∈ cols := by
  induction subs generalizing cols with
  | nil => intro p hp; cases hp
  | cons q rest ih =>
    obtain ⟨n, r⟩ := q
    unfold collectDirect at h
    cases r with
    | error e => cases h
    | ok v =>
      cases hrest : collectDirect rest with
      | error e => rw [hrest] at h; cases h
      | ok t =>
        rw [hrest] at h; cases h
        intro p hp
        rcases List.mem_cons.mp hp with rfl | hp'
        · exact ⟨v, rfl, List.mem_cons_self _ _⟩
        · obtain ⟨w, hw1, hw2⟩ := ih t hrest p hp'
          exact ⟨w, hw1, List.mem_cons_of_mem _ hw2⟩

theorem collectDirect_ok_cols (subs : List (String × Except String (List ℚ)))
    (cols : List (String × List ℚ)) (h : collectDirect subs = Except.ok cols) :
    ∀ c ∈ cols, (c.1, Except.ok c.2) ∈ subs := by
  induction subs generalizing cols with
  | nil => cases h; intro c hc; cases hc
  | cons q rest ih =>
    obtain ⟨n, r⟩ := q
    unfold collectDirect at h
    cases r with
    | error e => cases h
    | ok v =>
      cases hrest : collectDirect rest with
      | error e => rw [hrest] at h; cases h
      | ok t =>
        rw [hrest] at h; cases h
        intro c hc
        rcases List.mem_cons.mp hc with rfl | hc'
        · exact List.mem_cons_self _ _
        · exact List.mem_cons_of_mem _ (ih t hrest c hc')

/-- The iteration-order column names of one window: for each label (in
configuration order), one name per configured algorithm. -/
def windowColumnNames (algorithms : List String) (name_tag : String)
    (labels : List String) : List String :=
  labels.flatMap fun l => (algoSubmissionOrder algorithms).map fun a => l ++ name_tag ++ a

theorem dispatchWindowDirect_ok_names (algorithms : List String) (name_tag : String)
    (labels : List String) (step : Nat) (trainer : TrainerAdapter)
    (cols : List (String × List ℚ))
    (h : dispatchWindowDirect algorithms name_tag labels step trainer = Except.ok cols) :
    cols.map Prod.fst = windowColumnNames algorithms name_tag labels := by
  induction labels generalizing cols with
  | nil => cases h; rfl
  | cons l rest ih =>
    unfold dispatchWindowDirect at h
    cases hl : collectDirect (submissions algorithms name_tag l step trainer) with
    | error e => rw [hl] at h; cases h
    | ok lcols =>
      rw [hl] at h
      cases hrest : dispatchWindowDirect algorithms name_tag rest step trainer with
      | error e => rw [hrest] at h; cases h
      | ok t =>
        rw [hrest] at h; cases h
        rw [List.map_append, collectDirect_ok_names _ _ hl, ih t hrest]
        unfold windowColumnNames submissions
        rw [List.flatMap_cons, List.map_map]
        rfl

theorem dispatchWindowDirect_ok_tasks (algorithms : List String) (name_tag : String)
    (labels : List String) (step : Nat) (trainer : TrainerAdapter)
    (cols : List (String × List ℚ))
    (h : dispatchWindowDirect algorithms name_tag labels step trainer = Except.ok cols) :
    ∀ l ∈ labels, ∀ a ∈ algoSubmissionOrder algorithms,
      ∃ v, trainer a l step = Except.ok v ∧ (l ++ name_tag ++ a, v) ∈ cols := by
  induction labels generalizing cols with
  | nil => intro l hl; cases hl
  | cons l₀ rest ih =>
    unfold dispatchWindowDirect at h
    cases hl : collectDirect (submissions algorithms name_tag l₀ step trainer) with
    | error e => rw [hl] at h; cases h
    | ok lcols =>
      rw [hl] at h
      cases hrest : dispatchWindowDirect algorithms name_tag rest step trainer with
      | error e => rw [hrest] at h; cases h
      | ok t =>
        rw [hrest] at h; cases h
        intro l hlmem a ha
        rcases List.mem_cons.mp hlmem with rfl | hl'
        · have hp : (l ++ name_tag ++ a, trainer a l step)
              ∈ submissions algorithms name_tag l step trainer := by
            unfold submissions
            exact List.mem_map.mpr ⟨a, ha, rfl⟩
          obtain ⟨v, hv1, hv2⟩ := collectDirect_ok_tasks _ _ hl _ hp
          exact ⟨v, hv1, List.mem_append_left _ hv2⟩
        · obtain ⟨v, hv1, hv2⟩ := ih t hrest l hl' a ha
          exact ⟨v, hv1, List.mem_append_right _ hv2⟩

theorem dispatchWindowDirect_ok_col_values (algorithms : List String) (name_tag : String)
    (labels : List String) (step : Nat) (trainer : TrainerAdapter)
    (cols : List (String × List ℚ))
    (h : dispatchWindowDirect algorithms name_tag labels step trainer = Except.ok cols) :
    ∀ c ∈ cols, ∃ a l, a ∈ algoSubmissionOrder algorithms ∧ l ∈ labels ∧
      trainer a l step = Except.ok c.2 := by
  induction labels generalizing cols with
  | nil => cases h; intro c hc; cases hc
  | cons l₀ rest ih =>
    unfold dispatchWindowDirect at h
    cases hl : collectDirect (submissions algorithms name_tag l₀ step trainer) with
    | error e => rw [hl] at h; cases h
    | ok lcols =>
      rw [hl] at h
      cases hrest : dispatchWindowDirect algorithms name_tag rest step trainer with
      | error e => rw [hrest] at h; cases h
      | ok t =>
        rw [hrest] at h; cases h
        intro c hc
        rcases List.mem_append.mp hc with hc' | hc'
        · have := collectDirect_ok_cols _ _ hl c hc'
          unfold submissions at this
          obtain ⟨a, ha, heq⟩ := List.mem_map.mp this
          refine ⟨a, l₀, ha, List.mem_cons_self _ _, ?_⟩
          have : trainer a l₀ step = Except.ok c.2 := by
            have h2 := congrArg Prod.snd heq
            simpa using h2
          exact this
        · obtain ⟨a, l, ha, hlmem, hv⟩ := ih t hrest c hc'
          exact ⟨a, l, ha, List.mem_cons_of_mem _ hlmem, hv⟩

theorem runWindows_ok (W : Nat) (order : Nat → String → List Nat)
    (algorithms : List String) (name_tag : String) (labels : List String)
    (trainer : TrainerAdapter) (lst : List Nat)
    (out : List (List (String × List ℚ)))
    (h : runWindows W order algorithms name_tag labels trainer lst = Except.ok out) :
    ∀ step ∈ lst, ∃ t,
      dispatchWindow W (order step) algorithms name_tag labels step trainer
        = Except.ok t := by
  induction lst generalizing out with
  | nil => intro step hstep; cases hstep
  | cons s rest ih =>
    unfold runWindows at h
    cases hs : dispatchWindow W (order s) algorithms name_tag labels s trainer with
    | error e => rw [hs] at h; cases h
    | ok t =>
      rw [hs] at h
      cases hrest : runWindows W order algorithms name_tag labels trainer rest with
      | error e => rw [hrest] at h; cases h
      | ok ts =>
        rw [hrest] at h; cases h
        intro step hstep
        rcases List.mem_cons.mp hstep with rfl | hstep'
        · exact ⟨t, hs⟩
        · exact ih ts hrest step hstep'

/-- C5: with the fail-fast collection, a trainer error in any task of any
window makes the whole rolling run abort with an error, so nothing is stored;
conversely a stored result implies every task of every window succeeded, so
no partially-filled column set ever reaches the accumulated result table. -/
theorem fail_fast_no_partial_output (W : Nat) (order : Nat → String → List Nat)
    (algorithms : List String) (name_tag : String) (labels : List String)
    (steps : Nat) (trainer : TrainerAdapter)
    (horder : ∀ i l, (order i l).Perm
      (List.range (algoSubmissionOrder algorithms).length)) :
    (∀ out, rollingRun W order algorithms name_tag labels steps trainer = Except.ok out →
      ∀ step, step < steps → ∀ l ∈ labels, ∀ a ∈ algoSubmissionOrder algorithms,
        ∃ v, trainer a l step = Except.ok v) ∧
    (∀ step, step < steps → ∀ l ∈ labels, ∀ a ∈ algoSubmissionOrder algorithms,
      ∀ e, trainer a l step = Except.error e →
        ∃ e', rollingRun W order algorithms name_tag labels steps trainer
          = Except.error e') := by
  have hok : ∀ out, rollingRun W order algorithms name_tag labels steps trainer
      = Except.ok out →
      ∀ step, step < steps → ∀ l ∈ labels, ∀ a ∈ algoSubmissionOrder algorithms,
        ∃ v, trainer a l step = Except.ok v := by
    intro out hrun step hstep l hl a ha
    obtain ⟨t, ht⟩ := runWindows_ok W order algorithms name_tag labels trainer
      (List.range steps) out hrun step (List.mem_range.mpr hstep)
    rw [dispatchWindow_eq_direct W (order step) algorithms name_tag labels step trainer
      (horder step)] at ht
    obtain ⟨v, hv, _⟩ := dispatchWindowDirect_ok_tasks algorithms name_tag labels step
      trainer t ht l hl a ha
    exact ⟨v, hv⟩
  refine ⟨hok, ?_⟩
  intro step hstep l hl a ha e he
  cases hrun : rollingRun W order algorithms name_tag labels steps trainer with
  | error e' => exact ⟨e', rfl⟩
  | ok out =>
    obtain ⟨v, hv⟩ := hok out hrun step hstep l hl a ha
    rw [he] at hv
    cases hv

/-- Witness for C5: an adapter that always raises makes a 1-step, 1-label,
1-algorithm rolling run abort with an error. -/
theorem fail_fast_no_partial_output_witness :
    ∃ e', rollingRun 2 (fun _ _ => [0]) ["nn"] "_k_" ["high"] 1
      (fun _ _ _ => Except.error "training failed") = Except.error e' := by
  refine (fail_fast_no_partial_output 2 (fun _ _ => [0]) ["nn"] "_k_" ["high"] 1
    (fun _ _ _ => Except.error "training failed") ?_).2 0 (by norm_num) "high" ?_ "nn" ?_
    "training failed" rfl
  · intro i l
    show ([0] : List ℕ).Perm (List.range (algoSubmissionOrder ["nn"]).length)
    decide
  · simp
  · decide

/-- C6: with a deterministic trainer adapter, the assembled per-window
prediction table does not depend on the worker-pool size or on the order in
which the pool completes the tasks; on success its column names are exactly
the iteration order of the (label, algorithm) pairs, each named column holds
the trainer's output for its pair, and every column has exactly the length of
the prediction slice `features_test` (1:1 row alignment). -/
theorem dispatcher_determinism (algorithms : List String) (name_tag : String)
    (labels : List String) (step : Nat) (trainer : TrainerAdapter) (testLen : Nat)
    (halign : ∀ a l v, trainer a l step = Except.ok v → v.length = testLen) :
    (∀ (W W' : Nat) (order order' : String → List Nat),
      (∀ l, (order l).Perm (List.range (algoSubmissionOrder algorithms).length)) →
      (∀ l, (order' l).Perm (List.range (algoSubmissionOrder algorithms).length)) →
      dispatchWindow W order algorithms name_tag labels step trainer
        = dispatchWindow W' order' algorithms name_tag labels step trainer) ∧
    (∀ (W : Nat) (order : String → List Nat),
      (∀ l, (order l).Perm (List.range (algoSubmissionOrder algorithms).length)) →
      ∀ cols, dispatchWindow W order algorithms name_tag labels step trainer
          = Except.ok cols →
        cols.map Prod.fst = windowColumnNames algorithms name_tag labels ∧
        (∀ l ∈ labels, ∀ a ∈ algoSubmissionOrder algorithms,
          ∃ v, trainer a l step = Except.ok v ∧ (l ++ name_tag ++ a, v) ∈ cols) ∧
        (∀ c ∈ cols, c.2.length = testLen)) := by
  constructor
  · intro W W' order order' horder horder'
    rw [dispatchWindow_eq_direct W order algorithms name_tag labels step trainer horder,
      dispatchWindow_eq_direct W' order' algorithms name_tag labels step trainer horder']
  · intro W order horder cols hcols
    rw [dispatchWindow_eq_direct W order algorithms name_tag labels step trainer horder]
      at hcols
    refine ⟨dispatchWindowDirect_ok_names algorithms name_tag labels step trainer cols hcols,
      dispatchWindowDirect_ok_tasks algorithms name_tag labels step trainer cols hcols, ?_⟩
    intro c hc
    obtain ⟨a, l, _, _, hv⟩ :=
      dispatchWindowDirect_ok_col_values algorithms name_tag labels step trainer cols
        hcols c hc
    exact halign a l c.2 hv

/-- Witness for C6: two dispatches of the same window with different pool
sizes and different completion orders coincide. -/
theorem dispatcher_determinism_witness :
    dispatchWindow 1 (fun _ => [0, 1]) ["gb", "nn"] "_k_" ["high"] 0
        (fun _ _ _ => Except.ok [0])
      = dispatchWindow 7 (fun _ => [1, 0]) ["gb", "nn"] "_k_" ["high"] 0
        (fun _ _ _ => Except.ok [0]) :=
  (dispatcher_determinism ["gb", "nn"] "_k_" ["high"] 0 (fun _ _ _ => Except.ok [0]) 1
    (fun a l v h => by cases h; rfl)).1 1 7 (fun _ => [0, 1]) (fun _ => [1, 0])
    (fun l => by
      show ([0, 1] : List ℕ).Perm (List.range (algoSubmissionOrder ["gb", "nn"]).length)
      decide)
    (fun l => by
      show ([1, 0] : List ℕ).Perm (List.range (algoSubmissionOrder ["gb", "nn"]).length)
      decide)

/-! ### Interval scorer (`find_interval_score`, signal_generation.py lines 210-278)

`df[label_column].diff()` on a boolean column is the XOR of consecutive
values (pandas uses `operator.xor` for boolean dtype); `out.iloc[0] = False`
defines the first row as no transition; `astype(int)` then `cumsum()` gives
the inclusive running count of transitions as `interval_no`;
`groupby(interval_no)` aggregates with `max` (for booleans: "any") over the
label column and over `score >= threshold`, producing one output row per
distinct `interval_no` in ascending key order.  A table row is the pair
`(label, score)`. -/

/-- The transition flags of `label_column.diff()` after the first row, where
`prev` is the value of the row just before. -/
def diffFlagsFrom (prev : Bool) : List Bool → List Bool
  | [] => []
  | x :: xs => (x != prev) :: diffFlagsFrom x xs

/-- Python `out = df[label_column].diff(); out.iloc[0] = False`: the per-row
transition flags with the first row counting as no transition. -/
def diffFlags : List Bool → List Bool
  | [] => []
  | l :: ls => false :: diffFlagsFrom l ls

/-- Inclusive cumulative count (`cumsum` after `astype(int)`) of the
transition flags, starting from `acc`. -/
def cumsumFrom (acc : ℕ) : List Bool → List ℕ
  | [] => []
  | b :: bs =>
    let acc' := acc + (if b then 1 else 0)
    acc' :: cumsumFrom acc' bs

/-- Python `df[interval_no_column] = out.cumsum()`: each row's interval id, the
inclusive running count of label transitions. -/
def intervalIds (ls : List Bool) : List ℕ := cumsumFrom 0 (diffFlags ls)

/-- Rows tagged with their interval id. -/
def taggedRows (rows : List (Bool × ℚ)) : List (ℕ × Bool × ℚ) :=
  (intervalIds (rows.map Prod.fst)).zip rows

/-- The distinct group keys of `groupby(interval_no)` in ascending order. -/
def sortedKeys (ids : List ℕ) : List ℕ :=
  (List.range (ids.foldr max 0 + 1)).filter fun k => decide (k ∈ ids)

/-- Python `by_interval[label_column].max()` for group `g`: true iff some row of the
group has a true label. -/
def groupLabel (tagged : List (ℕ × Bool × ℚ)) (g : ℕ) : Bool :=
  (tagged.filter fun t => t.1 == g).any fun t => t.2.1

/-- Python `by_interval[score_column + '_greater_than_threshold'].max()` for group
`g`: true iff some row of the group has `score >= threshold`. -/
def groupScoreHit (tagged : List (ℕ × Bool × ℚ)) (θ : ℚ) (g : ℕ) : Bool :=
  (tagged.filter fun t => t.1 == g).any fun t => decide (θ ≤ t.2.2)

/-- One row of the output frame: `{interval_no, interval_label,
interval_score}`. -/
structure IntervalRow where
  interval_no : ℕ
  interval_label : Bool
  interval_score : Bool
  deriving Repr, DecidableEq

/-- The function `find_interval_score`: one output row per distinct interval id, in
ascending id order, with the group-wise `max` aggregates. -/
def find_interval_score (rows : List (Bool × ℚ)) (θ : ℚ) : List IntervalRow :=
  (sortedKeys (intervalIds (rows.map Prod.fst))).map fun g =>
    ⟨g, groupLabel (taggedRows rows) g, groupScoreHit (taggedRows rows) θ g⟩

/-- The maximal runs of consecutive rows with equal label value: each run is
its label value together with its rows' scores, in order.  This is the
reference decomposition the claims are stated against. -/
def runs : List (Bool × ℚ) → List (Bool × List ℚ)
  | [] => []
  | (l, q) :: rest =>
    match runs rest with
    | [] => [(l, [q])]
    | (l', qs) :: more =>
      if l = l' then (l, q :: qs) :: more else (l, [q]) :: (l', qs) :: more

/-- The reference output: the `i`-th maximal run yields row
`(i, run label, ∃ score in the run ≥ threshold)`. -/
def runsOutput (rows : List (Bool × ℚ)) (θ : ℚ) : List IntervalRow :=
  (runs rows).enum.map fun p => ⟨p.1, p.2.1, p.2.2.any fun q => decide (θ ≤ q)⟩

theorem cumsumFrom_succ (bs : List Bool) (acc : ℕ) :
    cumsumFrom (acc + 1) bs = (cumsumFrom acc bs).map (· + 1) := by
  induction bs generalizing acc with
  | nil => rfl
  | cons b t ih =>
    unfold cumsumFrom
    simp only [List.map_cons]
    rw [show acc + 1 + (if b then 1 else 0) = acc + (if b then 1 else 0) + 1 by omega]
    rw [ih]

theorem intervalIds_cons (l : Bool) (ls : List Bool) :
    intervalIds (l :: ls) = 0 :: cumsumFrom 0 (diffFlagsFrom l ls) := rfl

theorem intervalIds_cons_same (l : Bool) (ls : List Bool) :
    intervalIds (l :: l :: ls) = 0 :: intervalIds (l :: ls) := by
  rw [intervalIds_cons, intervalIds_cons]
  show 0 :: cumsumFrom 0 ((l != l) :: diffFlagsFrom l ls) = _
  simp [cumsumFrom]

theorem intervalIds_cons_diff (l l' : Bool) (hne : l ≠ l') (ls : List Bool) :
    intervalIds (l :: l' :: ls) = 0 :: (intervalIds (l' :: ls)).map (· + 1) := by
  rw [intervalIds_cons, intervalIds_cons]
  show 0 :: cumsumFrom 0 ((l' != l) :: diffFlagsFrom l' ls) = _
  have hb : (l' != l) = true := by
    simp [bne_iff_ne]
    exact fun h => hne h.symm
  rw [hb]
  show 0 :: ((0 + 1) :: cumsumFrom (0 + 1) (diffFlagsFrom l' ls)) = _
  rw [cumsumFrom_succ]
  simp [cumsumFrom]

theorem foldr_max_map_succ (ids : List ℕ) (hne : ids ≠ []) :
    ((ids.map (· + 1)).foldr max 0) = ids.foldr max 0 + 1 := by
  induction ids with
  | nil => exact absurd rfl hne
  | cons a t ih =>
    cases t with
    | nil => simp
    | cons b t' =>
      simp only [List.map_cons, List.foldr_cons] at ih ⊢
      rw [ih (by simp)]
      omega

theorem sortedKeys_cons_zero_zero (t : List ℕ) :
    sortedKeys (0 :: 0 :: t) = sortedKeys (0 :: t) := by
  unfold sortedKeys
  have h1 : (0 :: 0 :: t).foldr max 0 = (0 :: t).foldr max 0 := by simp
  rw [h1]
  apply List.filter_congr
  intro k _
  simp only [decide_eq_decide, List.mem_cons]
  tauto

theorem sortedKeys_zero_shift (ids : List ℕ) (hne : ids ≠ []) :
    sortedKeys (0 :: ids.map (· + 1)) = 0 :: (sortedKeys ids).map (· + 1) := by
  unfold sortedKeys
  have h1 : (0 :: ids.map (· + 1)).foldr max 0 = ids.foldr max 0 + 1 := by
    simp only [List.foldr_cons]
    rw [foldr_max_map_succ ids hne]
    omega
  rw [h1, List.range_succ_eq_map]
  rw [List.filter_cons]
  have h0 : decide ((0 : ℕ) ∈ 0 :: ids.map (· + 1)) = true := by simp
  rw [h0]
  simp only [if_true]
  congr 1
  have h2 : List.map Nat.succ (List.range (ids.foldr max 0 + 1))
      = List.map (· + 1) (List.range (ids.foldr max 0 + 1)) := by
    apply List.map_congr_left
    intro a _
    omega
  rw [h2, List.filter_map]
  congr 1
  apply List.filter_congr
  intro k _
  show decide ((k + 1) ∈ 0 :: ids.map (· + 1)) = decide (k ∈ ids)
  simp only [decide_eq_decide, List.mem_cons, List.mem_map]
  constructor
  · rintro (h | ⟨a, ha, hak⟩)
    · omega
    · have : a = k := by omega
      exact this ▸ ha
  · intro hk
    exact Or.inr ⟨k, hk, rfl⟩

/-- Bump every interval id of a tagged row list by one. -/
def shiftTagged (tagged : List (ℕ × Bool × ℚ)) : List (ℕ × Bool × ℚ) :=
  tagged.map fun t => (t.1 + 1, t.2)

theorem taggedRows_cons_same (l : Bool) (q q' : ℚ) (rest : List (Bool × ℚ)) :
    taggedRows ((l, q) :: (l, q') :: rest) = (0, (l, q)) :: taggedRows ((l, q') :: rest) := by
  unfold taggedRows
  simp only [List.map_cons]
  rw [intervalIds_cons_same]
  rfl

theorem taggedRows_cons_diff (l l' : Bool) (hne : l ≠ l') (q q' : ℚ)
    (rest : List (Bool × ℚ)) :
    taggedRows ((l, q) :: (l', q') :: rest)
      = (0, (l, q)) :: shiftTagged (taggedRows ((l', q') :: rest)) := by
  unfold taggedRows shiftTagged
  simp only [List.map_cons]
  rw [intervalIds_cons_diff l l' hne]
  show ((0, (l, q)) :: ((List.map (· + 1) (intervalIds (l' :: rest.map Prod.fst))).zip
      ((l', q') :: rest)) : List (ℕ × Bool × ℚ)) = _
  rw [List.zip_map_left]
  rfl

theorem groupLabel_cons_zero (p : Bool × ℚ) (tagged : List (ℕ × Bool × ℚ)) :
    groupLabel ((0, p) :: tagged) 0 = (p.1 || groupLabel tagged 0) := by
  unfold groupLabel
  rw [List.filter_cons_of_pos rfl, List.any_cons]

theorem groupScoreHit_cons_zero (p : Bool × ℚ) (tagged : List (ℕ × Bool × ℚ)) (θ : ℚ) :
    groupScoreHit ((0, p) :: tagged) θ 0 = (decide (θ ≤ p.2) || groupScoreHit tagged θ 0) := by
  unfold groupScoreHit
  rw [List.filter_cons_of_pos rfl, List.any_cons]

theorem groupLabel_cons_ne (p : Bool × ℚ) (tagged : List (ℕ × Bool × ℚ)) (g : ℕ)
    (hg : g ≠ 0) : groupLabel ((0, p) :: tagged) g = groupLabel tagged g := by
  have h0 : ((0 : ℕ) == g) = false := by
    rw [Bool.eq_false_iff, ne_eq, beq_iff_eq]
    exact fun h => hg h.symm
  simp [groupLabel, List.filter_cons, h0]

theorem groupScoreHit_cons_ne (p : Bool × ℚ) (tagged : List (ℕ × Bool × ℚ)) (θ : ℚ)
    (g : ℕ) (hg : g ≠ 0) : groupScoreHit ((0, p) :: tagged) θ g = groupScoreHit tagged θ g := by
  have h0 : ((0 : ℕ) == g) = false := by
    rw [Bool.eq_false_iff, ne_eq, beq_iff_eq]
    exact fun h => hg h.symm
  simp [groupScoreHit, List.filter_cons, h0]

theorem groupLabel_shift_zero (tagged : List (ℕ × Bool × ℚ)) :
    groupLabel (shiftTagged tagged) 0 = false := by
  unfold groupLabel shiftTagged
  rw [List.filter_map]
  have hcomp : ((fun t : ℕ × Bool × ℚ => t.1 == 0) ∘ fun t : ℕ × Bool × ℚ => (t.1 + 1, t.2))
      = fun _ => false := by
    funext t
    simp
  rw [hcomp]
  simp

theorem groupScoreHit_shift_zero (tagged : List (ℕ × Bool × ℚ)) (θ : ℚ) :
    groupScoreHit (shiftTagged tagged) θ 0 = false := by
  unfold groupScoreHit shiftTagged
  rw [List.filter_map]
  have hcomp : ((fun t : ℕ × Bool × ℚ => t.1 == 0) ∘ fun t : ℕ × Bool × ℚ => (t.1 + 1, t.2))
      = fun _ => false := by
    funext t
    simp
  rw [hcomp]
  simp

theorem groupLabel_shift_succ (tagged : List (ℕ × Bool × ℚ)) (g : ℕ) :
    groupLabel (shiftTagged tagged) (g + 1) = groupLabel tagged g := by
  unfold groupLabel shiftTagged
  rw [List.filter_map]
  have hcomp : ((fun t : ℕ × Bool × ℚ => t.1 == g + 1) ∘ fun t : ℕ × Bool × ℚ => (t.1 + 1, t.2))
      = fun t : ℕ × Bool × ℚ => t.1 == g := by
    funext t
    show (t.1 + 1 == g + 1) = (t.1 == g)
    rw [Bool.eq_iff_iff, beq_iff_eq, beq_iff_eq]
    omega
  rw [hcomp, List.any_map]
  rfl

theorem groupScoreHit_shift_succ (tagged : List (ℕ × Bool × ℚ)) (θ : ℚ) (g : ℕ) :
    groupScoreHit (shiftTagged tagged) θ (g + 1) = groupScoreHit tagged θ g := by
  unfold groupScoreHit shiftTagged
  rw [List.filter_map]
  have hcomp : ((fun t : ℕ × Bool × ℚ => t.1 == g + 1) ∘ fun t : ℕ × Bool × ℚ => (t.1 + 1, t.2))
      = fun t : ℕ × Bool × ℚ => t.1 == g := by
    funext t
    show (t.1 + 1 == g + 1) = (t.1 == g)
    rw [Bool.eq_iff_iff, beq_iff_eq, beq_iff_eq]
    omega
  rw [hcomp, List.any_map]
  rfl

theorem sortedKeys_intervalIds_head (l : Bool) (ls : List Bool) :
    ∃ K, sortedKeys (intervalIds (l :: ls)) = 0 :: K ∧ ∀ k ∈ K, k ≠ 0 := by
  rw [intervalIds_cons]
  unfold sortedKeys
  rw [List.range_succ_eq_map, List.filter_cons]
  have h0 : (decide ((0 : ℕ) ∈ 0 :: cumsumFrom 0 (diffFlagsFrom l ls))) = true := by simp
  rw [h0, if_pos rfl]
  refine ⟨_, rfl, fun k hk => ?_⟩
  have hmem := List.mem_of_mem_filter hk
  obtain ⟨a, _, rfl⟩ := List.mem_map.mp hmem
  exact Nat.succ_ne_zero a

theorem runs_cons_shape (l : Bool) (q : ℚ) (rest : List (Bool × ℚ)) :
    ∃ qs more, runs ((l, q) :: rest) = (l, q :: qs) :: more := by
  show ∃ qs more,
    (match runs rest with
      | [] => [(l, [q])]
      | (l', qs) :: more =>
        if l = l' then (l, q :: qs) :: more else (l, [q]) :: (l', qs) :: more)
    = (l, q :: qs) :: more
  cases hr : runs rest with
  | nil => exact ⟨[], [], rfl⟩
  | cons p more =>
    obtain ⟨l', qs⟩ := p
    by_cases h : l = l'
    · subst h
      exact ⟨qs, more, by simp⟩
    · exact ⟨[], (l', qs) :: more, by simp [h]⟩

theorem enumFrom_succ_shift {α : Type} (l : List α) (n : ℕ) :
    List.enumFrom (n + 1) l = (List.enumFrom n l).map fun p => (p.1 + 1, p.2) := by
  induction l generalizing n with
  | nil => rfl
  | cons a t ih => simp [List.enumFrom_cons, ih]

/-- The central correctness fact of the interval scorer: its output is one
row per maximal run of equal consecutive labels, in order, with id `i` for
the `i`-th run, the run's label, and the existential threshold hit. -/
theorem find_interval_score_eq_runsOutput (rows : List (Bool × ℚ)) (θ : ℚ) :
    find_interval_score rows θ = runsOutput rows θ := by
  induction rows with
  | nil => rfl
  | cons hd tl ih =>
    obtain ⟨l, q⟩ := hd
    cases tl with
    | nil =>
      show find_interval_score [(l, q)] θ = runsOutput [(l, q)] θ
      simp [find_interval_score, runsOutput, runs, sortedKeys, intervalIds, diffFlags,
        diffFlagsFrom, cumsumFrom, taggedRows, groupLabel, groupScoreHit,
        show List.range 1 = [0] from rfl]
    | cons hd' tl' =>
      obtain ⟨l', q'⟩ := hd'
      by_cases hl : l = l'
      · subst hl
        obtain ⟨K, hK, hKne⟩ := sortedKeys_intervalIds_head l (tl'.map Prod.fst)
        obtain ⟨qs, more, hruns⟩ := runs_cons_shape l q' tl'
        have hold : find_interval_score ((l, q') :: tl') θ
            = (⟨0, groupLabel (taggedRows ((l, q') :: tl')) 0,
                groupScoreHit (taggedRows ((l, q') :: tl')) θ 0⟩ : IntervalRow)
              :: K.map (fun g => (⟨g, groupLabel (taggedRows ((l, q') :: tl')) g,
                groupScoreHit (taggedRows ((l, q') :: tl')) θ g⟩ : IntervalRow)) := by
          unfold find_interval_score
          simp only [List.map_cons]
          rw [hK, List.map_cons]
        have hnewkeys : sortedKeys (intervalIds (l :: l :: tl'.map Prod.fst)) = 0 :: K := by
          rw [intervalIds_cons_same l (tl'.map Prod.fst),
            intervalIds_cons l (tl'.map Prod.fst), sortedKeys_cons_zero_zero,
            ← intervalIds_cons l (tl'.map Prod.fst)]
          exact hK
        have hnew : find_interval_score ((l, q) :: (l, q') :: tl') θ
            = (⟨0, l || groupLabel (taggedRows ((l, q') :: tl')) 0,
                decide (θ ≤ q) || groupScoreHit (taggedRows ((l, q') :: tl')) θ 0⟩ : IntervalRow)
              :: K.map (fun g => (⟨g, groupLabel (taggedRows ((l, q') :: tl')) g,
                groupScoreHit (taggedRows ((l, q') :: tl')) θ g⟩ : IntervalRow)) := by
          unfold find_interval_score
          simp only [List.map_cons]
          rw [hnewkeys, List.map_cons]
          congr 1
          · show (⟨0, groupLabel (taggedRows ((l, q) :: (l, q') :: tl')) 0,
                groupScoreHit (taggedRows ((l, q) :: (l, q') :: tl')) θ 0⟩ : IntervalRow) = _
            rw [taggedRows_cons_same, groupLabel_cons_zero, groupScoreHit_cons_zero]
          · apply List.map_congr_left
            intro k hk
            show (⟨k, groupLabel (taggedRows ((l, q) :: (l, q') :: tl')) k,
                groupScoreHit (taggedRows ((l, q) :: (l, q') :: tl')) θ k⟩ : IntervalRow) = _
            rw [taggedRows_cons_same, groupLabel_cons_ne _ _ k (hKne k hk),
              groupScoreHit_cons_ne _ _ _ k (hKne k hk)]
        have hih := ih
        rw [hold] at hih
        unfold runsOutput at hih
        rw [hruns, List.enum_cons] at hih
        simp only [List.map_cons, List.cons.injEq, IntervalRow.mk.injEq] at hih
        obtain ⟨⟨_, hlab, hhit⟩, htail⟩ := hih
        have hrunsnew : runs ((l, q) :: (l, q') :: tl') = (l, q :: q' :: qs) :: more := by
          show (match runs ((l, q') :: tl') with
            | [] => [(l, [q])]
            | (l', qs) :: more =>
              if l = l' then (l, q :: qs) :: more else (l, [q]) :: (l', qs) :: more)
            = (l, q :: q' :: qs) :: more
          rw [hruns]
          simp
        rw [hnew]
        unfold runsOutput
        rw [hrunsnew, List.enum_cons]
        simp only [List.map_cons, List.cons.injEq, IntervalRow.mk.injEq]
        refine ⟨⟨trivial, ?_, ?_⟩, htail⟩
        · rw [hlab, Bool.or_self]
        · rw [hhit]
          simp [List.any_cons]
      · obtain ⟨qs, more, hruns⟩ := runs_cons_shape l' q' tl'
        have hkeys : sortedKeys (intervalIds (l :: l' :: tl'.map Prod.fst))
            = 0 :: (sortedKeys (intervalIds (l' :: tl'.map Prod.fst))).map (· + 1) := by
          rw [intervalIds_cons_diff l l' hl (tl'.map Prod.fst)]
          exact sortedKeys_zero_shift _
            (by rw [intervalIds_cons]; exact List.cons_ne_nil _ _)
        have hnew : find_interval_score ((l, q) :: (l', q') :: tl') θ
            = (⟨0, l, decide (θ ≤ q)⟩ : IntervalRow)
              :: (find_interval_score ((l', q') :: tl') θ).map
                  (fun r => (⟨r.interval_no + 1, r.interval_label,
                    r.interval_score⟩ : IntervalRow)) := by
          unfold find_interval_score
          simp only [List.map_cons]
          rw [hkeys, List.map_cons]
          congr 1
          · show (⟨0, groupLabel (taggedRows ((l, q) :: (l', q') :: tl')) 0,
                groupScoreHit (taggedRows ((l, q) :: (l', q') :: tl')) θ 0⟩ : IntervalRow) = _
            rw [taggedRows_cons_diff l l' hl, groupLabel_cons_zero, groupScoreHit_cons_zero,
              groupLabel_shift_zero, groupScoreHit_shift_zero]
            simp
          · rw [List.map_map, List.map_map]
            apply List.map_congr_left
            intro g _
            show (⟨g + 1, groupLabel (taggedRows ((l, q) :: (l', q') :: tl')) (g + 1),
                groupScoreHit (taggedRows ((l, q) :: (l', q') :: tl')) θ (g + 1)⟩ : IntervalRow)
              = _
            rw [taggedRows_cons_diff l l' hl,
              groupLabel_cons_ne _ _ (g + 1) (Nat.succ_ne_zero g),
              groupScoreHit_cons_ne _ _ _ (g + 1) (Nat.succ_ne_zero g),
              groupLabel_shift_succ, groupScoreHit_shift_succ]
            rfl
        have hrunsnew : runs ((l, q) :: (l', q') :: tl')
            = (l, [q]) :: runs ((l', q') :: tl') := by
          show (match runs ((l', q') :: tl') with
            | [] => [(l, [q])]
            | (l', qs) :: more =>
              if l = l' then (l, q :: qs) :: more else (l, [q]) :: (l', qs) :: more)
            = (l, [q]) :: runs ((l', q') :: tl')
          rw [hruns]
          simp [hl]
        rw [hnew, ih]
        unfold runsOutput
        rw [hrunsnew, List.enum_cons]
        simp only [List.map_cons, List.cons.injEq, IntervalRow.mk.injEq]
        refine ⟨⟨trivial, trivial, by simp⟩, ?_⟩
        show ((runs ((l', q') :: tl')).enum.map _).map _ = _
        rw [show (1 : ℕ) = 0 + 1 from rfl, enumFrom_succ_shift (runs ((l', q') :: tl')) 0]
        rw [List.map_map, List.map_map]
        rfl

theorem runsOutput_map_no (rows : List (Bool × ℚ)) (θ : ℚ) :
    (runsOutput rows θ).map IntervalRow.interval_no = List.range (runs rows).length := by
  unfold runsOutput
  rw [List.map_map]
  have hcomp : (IntervalRow.interval_no ∘ fun p : ℕ × Bool × List ℚ =>
      (⟨p.1, p.2.1, p.2.2.any fun s => decide (θ ≤ s)⟩ : IntervalRow)) = Prod.fst := by
    funext p
    rfl
  rw [hcomp, List.enum_map_fst]

theorem runsOutput_map_label (rows : List (Bool × ℚ)) (θ : ℚ) :
    (runsOutput rows θ).map IntervalRow.interval_label = (runs rows).map Prod.fst := by
  unfold runsOutput
  rw [List.map_map]
  have hcomp : (IntervalRow.interval_label ∘ fun p : ℕ × Bool × List ℚ =>
      (⟨p.1, p.2.1, p.2.2.any fun s => decide (θ ≤ s)⟩ : IntervalRow))
      = (Prod.fst ∘ Prod.snd : ℕ × Bool × List ℚ → Bool) := by
    funext p
    rfl
  rw [hcomp, ← List.map_map, List.enum_map_snd]

theorem runs_const_label (l : Bool) (rows : List (Bool × ℚ)) (hne : rows ≠ [])
    (hconst : ∀ p ∈ rows, p.1 = l) : (runs rows).length = 1 := by
  induction rows with
  | nil => exact absurd rfl hne
  | cons hd tl ih =>
    obtain ⟨l0, q0⟩ := hd
    have hl0 : l0 = l := hconst (l0, q0) (List.mem_cons_self _ _)
    cases tl with
    | nil => simp [runs]
    | cons hd' tl' =>
      obtain ⟨l1, q1⟩ := hd'
      have hl1 : l1 = l := hconst (l1, q1) (List.mem_cons_of_mem _ (List.mem_cons_self _ _))
      have hrec := ih (List.cons_ne_nil _ _)
        (fun p hp => hconst p (List.mem_cons_of_mem _ hp))
      obtain ⟨qs, more, hruns⟩ := runs_cons_shape l1 q1 tl'
      show (match runs ((l1, q1) :: tl') with
        | [] => [(l0, [q0])]
        | (l', qs) :: more =>
          if l0 = l' then (l0, q0 :: qs) :: more else (l0, [q0]) :: (l', qs) :: more).length = 1
      rw [hruns]
      show (if l0 = l1 then (l0, q0 :: (q1 :: qs)) :: more
        else (l0, [q0]) :: (l1, q1 :: qs) :: more).length = 1
      rw [if_pos (hl0.trans hl1.symm)]
      rw [hruns] at hrec
      simpa using hrec

theorem runs_chain_ne (rows : List (Bool × ℚ)) :
    List.Chain' (fun a b : Bool × List ℚ => a.1 ≠ b.1) (runs rows) := by
  induction rows with
  | nil => simp [runs]
  | cons hd tl ih =>
    obtain ⟨l, q⟩ := hd
    show List.Chain' _ (match runs tl with
      | [] => [(l, [q])]
      | (l', qs) :: more =>
        if l = l' then (l, q :: qs) :: more else (l, [q]) :: (l', qs) :: more)
    cases hr : runs tl with
    | nil => simp
    | cons p more =>
      obtain ⟨l', qs⟩ := p
      rw [hr] at ih
      by_cases h : l = l'
      · subst h
        show List.Chain' (fun a b : Bool × List ℚ => a.1 ≠ b.1)
          (if l = l then (l, q :: qs) :: more else (l, [q]) :: (l, qs) :: more)
        rw [if_pos rfl]
        rw [List.chain'_cons'] at ih ⊢
        exact ⟨ih.1, ih.2⟩
      · show List.Chain' (fun a b : Bool × List ℚ => a.1 ≠ b.1)
          (if l = l' then (l, q :: qs) :: more else (l, [q]) :: (l', qs) :: more)
        rw [if_neg h, List.chain'_cons]
        exact ⟨h, ih⟩

theorem runs_length_of_alternating (rows : List (Bool × ℚ))
    (h : List.Chain' (fun a b : Bool × ℚ => a.1 ≠ b.1) rows) :
    (runs rows).length = rows.length := by
  induction rows with
  | nil => rfl
  | cons hd tl ih =>
    obtain ⟨l, q⟩ := hd
    cases tl with
    | nil => simp [runs]
    | cons hd' tl' =>
      obtain ⟨l1, q1⟩ := hd'
      rw [List.chain'_cons] at h
      obtain ⟨hne, hch⟩ := h
      obtain ⟨qs, more, hruns⟩ := runs_cons_shape l1 q1 tl'
      show (match runs ((l1, q1) :: tl') with
        | [] => [(l, [q])]
        | (l', qs) :: more =>
          if l = l' then (l, q :: qs) :: more else (l, [q]) :: (l', qs) :: more).length = _
      rw [hruns]
      show (if l = l1 then (l, q :: (q1 :: qs)) :: more
        else (l, [q]) :: (l1, q1 :: qs) :: more).length = _
      rw [if_neg hne]
      have := ih hch
      rw [hruns] at this
      simp only [List.length_cons] at this ⊢
      omega

/-- C1: the interval scorer returns one row per maximal run of consecutive
equal labels: the rows are ordered by the strictly increasing interval id
0, 1, 2, … (the inclusive running count of label transitions), each row
carries the run's label value and the existential threshold hit; a constant
label column yields exactly one row; and on labels `[T,T,F,F,F,T]`, scores
`[0.9, 0.1, 0.2, 0.8, 0.1, 0.95]`, threshold `0.5` the output is the three
intervals `(T,T), (F,T), (T,T)`. -/
theorem interval_scorer_correct :
    (∀ (rows : List (Bool × ℚ)) (θ : ℚ), find_interval_score rows θ = runsOutput rows θ) ∧
    (∀ (rows : List (Bool × ℚ)) (θ : ℚ),
      (find_interval_score rows θ).map IntervalRow.interval_no
        = List.range (runs rows).length) ∧
    (∀ (l : Bool) (rows : List (Bool × ℚ)) (θ : ℚ), rows ≠ [] → (∀ p ∈ rows, p.1 = l) →
      (find_interval_score rows θ).length = 1) ∧
    find_interval_score ([true, true, false, false, false, true].zip
        [9/10, 1/10, 2/10, 8/10, 1/10, 95/100]) (1/2)
      = [⟨0, true, true⟩, ⟨1, false, true⟩, ⟨2, true, true⟩] := by
  refine ⟨fun rows θ => find_interval_score_eq_runsOutput rows θ, ?_, ?_, ?_⟩
  · intro rows θ
    rw [find_interval_score_eq_runsOutput]
    exact runsOutput_map_no rows θ
  · intro l rows θ hne hconst
    rw [find_interval_score_eq_runsOutput]
    unfold runsOutput
    rw [List.length_map, List.enum_length]
    exact runs_const_label l rows hne hconst
  · rw [find_interval_score_eq_runsOutput]
    have h1 : (decide ((1/2 : ℚ) ≤ 9/10)) = true := by norm_num
    have h2 : (decide ((1/2 : ℚ) ≤ 1/10)) = false := by norm_num
    have h3 : (decide ((1/2 : ℚ) ≤ 2/10)) = false := by norm_num
    have h4 : (decide ((1/2 : ℚ) ≤ 8/10)) = true := by norm_num
    have h5 : (decide ((1/2 : ℚ) ≤ 95/100)) = true := by norm_num
    simp [runsOutput, runs, List.zip, List.zipWith, h1, h2, h3, h4, h5]
    norm_num [List.enum, List.enumFrom, List.any]

/-- Witness for C1: a two-row constant-true table yields exactly one
interval. -/
theorem interval_scorer_correct_witness :
    (find_interval_score [(true, (1 : ℚ)), (true, 2)] 0).length = 1 := by
  refine interval_scorer_correct.2.2.1 true [(true, (1 : ℚ)), (true, 2)] 0 (by simp) ?_
  intro p hp
  rcases List.mem_cons.mp hp with rfl | hp'
  · rfl
  · rcases List.mem_singleton.mp hp' with rfl
    rfl

/-- C8: re-running the scorer on its own one-row-per-interval output, with
the output's interval label column as the label column (and any aligned
score column and threshold), yields exactly one interval per row of that
output: the one-row-per-interval form is a fixed point. -/
theorem interval_scorer_idempotent (rows : List (Bool × ℚ)) (θ θ2 : ℚ)
    (scores2 : List ℚ)
    (hlen : scores2.length = (find_interval_score rows θ).length) :
    (find_interval_score
        (((find_interval_score rows θ).map IntervalRow.interval_label).zip scores2) θ2).length
      = (find_interval_score rows θ).length := by
  have hlabels : (find_interval_score rows θ).map IntervalRow.interval_label
      = (runs rows).map Prod.fst := by
    rw [find_interval_score_eq_runsOutput]
    exact runsOutput_map_label rows θ
  have houtlen : (find_interval_score rows θ).length = (runs rows).length := by
    rw [find_interval_score_eq_runsOutput]
    unfold runsOutput
    rw [List.length_map, List.enum_length]
  set rows2 := ((find_interval_score rows θ).map IntervalRow.interval_label).zip scores2
    with hrows2
  have hlen2 : rows2.length = (find_interval_score rows θ).length := by
    rw [hrows2, List.length_zip, List.length_map, hlen]
    exact min_self _
  have hchain : List.Chain' (fun a b : Bool × ℚ => a.1 ≠ b.1) rows2 := by
    rw [← List.chain'_map (Prod.fst : Bool × ℚ → Bool)]
    have hfst : rows2.map Prod.fst
        = (find_interval_score rows θ).map IntervalRow.interval_label := by
      rw [hrows2]
      exact List.map_fst_zip _ _ (by rw [List.length_map, hlen])
    rw [hfst, hlabels, List.chain'_map]
    have := runs_chain_ne rows
    exact this
  rw [find_interval_score_eq_runsOutput]
  unfold runsOutput
  rw [List.length_map, List.enum_length]
  rw [runs_length_of_alternating rows2 hchain]
  exact hlen2

/-- Witness for C8: re-running on the two-interval output of a `[T, F]`
table yields two intervals again. -/
theorem interval_scorer_idempotent_witness :
    (find_interval_score
        (((find_interval_score [(true, (0 : ℚ)), (false, 0)] 0).map
          IntervalRow.interval_label).zip [0, 0]) 0).length
      = (find_interval_score [(true, (0 : ℚ)), (false, 0)] 0).length := by
  refine interval_scorer_idempotent [(true, (0 : ℚ)), (false, 0)] 0 0 [0, 0] ?_
  rw [find_interval_score_eq_runsOutput]
  rfl

/-! ### Caller-table mutation of the interval scorer

On its way to the interval table, `find_interval_score` writes two helper
columns into the caller's data frame: `df[interval_no_column] = out.cumsum()`
(line 253, fixed name `'interval_no'`) and
`df[score_column + '_greater_than_threshold'] = (df[score_column] >= threshold)`
(line 260).  `Table` models a pandas frame as an ordered association list of
named columns of heterogeneous cells. -/

/-- A cell of a pandas column: boolean, numeric, or integer. -/
inductive CellVal where
  | bool (b : Bool)
  | num (q : ℚ)
  | nat (n : ℕ)
  deriving Repr, DecidableEq

/-- A data frame: named columns in order. -/
abbrev Table := List (String × List CellVal)

/-- Column lookup (`df[c]`); empty when the column is absent. -/
def getCol (df : Table) (c : String) : List CellVal :=
  ((df.find? fun p => p.1 == c).map Prod.snd).getD []

/-- Column assignment (`df[c] = v`): overwrite in place when the name
exists, else append a new column on the right. -/
def setCol (df : Table) (c : String) (v : List CellVal) : Table :=
  if df.any (fun p => p.1 == c) then
    df.map fun p => if p.1 == c then (c, v) else p
  else df ++ [(c, v)]

/-- Read a boolean cell. -/
def cellBool : CellVal → Bool
  | .bool b => b
  | _ => false

/-- Read a numeric cell. -/
def cellNum : CellVal → ℚ
  | .num q => q
  | _ => 0

/-- The table-level `find_interval_score`: the mutated caller frame together
with the interval output rows.  Lines 253 and 260 write the helper columns
`interval_no` and `<score_column>_greater_than_threshold` into the caller's
frame. -/
def find_interval_score_df (df : Table) (label_column score_column : String)
    (θ : ℚ) : Table × List IntervalRow :=
  let labels := (getCol df label_column).map cellBool
  let scores := (getCol df score_column).map cellNum
  let ids := intervalIds labels
  let gtt := scores.map fun s => decide (θ ≤ s)
  let df1 := setCol df "interval_no" (ids.map CellVal.nat)
  let df2 := setCol df1 (score_column ++ "_greater_than_threshold") (gtt.map CellVal.bool)
  (df2, find_interval_score (labels.zip scores) θ)

theorem getCol_cons (p : String × List CellVal) (t : Table) (c : String) :
    getCol (p :: t) c = if p.1 == c then p.2 else getCol t c := by
  unfold getCol
  rw [List.find?_cons]
  by_cases h : (p.1 == c) = true
  · rw [h]
    rfl
  · rw [Bool.not_eq_true] at h
    rw [h]
    rfl

theorem getCol_replace_ne (df : Table) (c c' : String) (v : List CellVal) (h : c' ≠ c) :
    getCol (df.map fun p => if p.1 == c then (c, v) else p) c' = getCol df c' := by
  induction df with
  | nil => rfl
  | cons p t ih =>
    rw [List.map_cons, getCol_cons, getCol_cons]
    by_cases hc : (p.1 == c) = true
    · rw [if_pos hc]
      have h1 : ((c, v).1 == c') = false := by
        simp [Ne.symm h]
      have h2 : (p.1 == c') = false := by
        rw [beq_iff_eq] at hc
        simp [hc, Ne.symm h]
      rw [h1, h2]
      simp only [Bool.false_eq_true, if_false]
      exact ih
    · rw [if_neg hc]
      by_cases hc' : (p.1 == c') = true
      · rw [hc', if_pos rfl, if_pos rfl]
      · rw [Bool.not_eq_true] at hc'
        rw [hc']
        simp only [Bool.false_eq_true, if_false]
        exact ih

theorem getCol_append_ne (df : Table) (c c' : String) (v : List CellVal) (h : c' ≠ c) :
    getCol (df ++ [(c, v)]) c' = getCol df c' := by
  induction df with
  | nil =>
    show getCol [(c, v)] c' = getCol [] c'
    rw [getCol_cons]
    simp [Ne.symm h, getCol]
  | cons p t ih =>
    rw [List.cons_append, getCol_cons, getCol_cons]
    by_cases hc : (p.1 == c') = true
    · rw [hc, if_pos rfl, if_pos rfl]
    · rw [Bool.not_eq_true] at hc
      rw [hc]
      simp only [Bool.false_eq_true, if_false]
      exact ih

theorem getCol_setCol_ne (df : Table) (c c' : String) (v : List CellVal) (h : c' ≠ c) :
    getCol (setCol df c v) c' = getCol df c' := by
  unfold setCol
  split
  · exact getCol_replace_ne df c c' v h
  · exact getCol_append_ne df c c' v h

theorem names_setCol (df : Table) (c c' : String) (v : List CellVal) :
    c' ∈ (setCol df c v).map Prod.fst ↔ (c' ∈ df.map Prod.fst ∨ c' = c) := by
  unfold setCol
  split
  · rename_i hany
    have hnames : (df.map fun p => if p.1 == c then (c, v) else p).map Prod.fst
        = df.map Prod.fst := by
      rw [List.map_map]
      apply List.map_congr_left
      intro p _
      by_cases hp : (p.1 == c) = true
      · rw [beq_iff_eq] at hp
        simp [hp]
      · rw [Bool.not_eq_true] at hp
        have hp' : p.1 ≠ c := by simpa using hp
        simp [hp']
    rw [hnames]
    constructor
    · exact Or.inl
    · rintro (hmem | rfl)
      · exact hmem
      · obtain ⟨p, hp, hpc⟩ := List.any_eq_true.mp hany
        rw [beq_iff_eq] at hpc
        exact hpc ▸ List.mem_map.mpr ⟨p, hp, rfl⟩
  · rw [List.map_append, List.mem_append]
    simp

/-- Counterexample to C9 as stated: a caller-owned table with a pre-existing
`interval_no` column has that column's values destroyed by
`find_interval_score`, and the column written is not a prediction column. -/
theorem interval_scorer_mutates_caller_table :
    getCol ((find_interval_score_df
        [("lab", [CellVal.bool true]), ("sc", [CellVal.num 1]),
          ("interval_no", [CellVal.num 99])] "lab" "sc" 0).1) "interval_no"
      ≠ getCol [("lab", [CellVal.bool true]), ("sc", [CellVal.num 1]),
          ("interval_no", [CellVal.num 99])] "interval_no" := by
  decide

/-- C9 amended: the interval scorer writes exactly the two helper columns
`interval_no` and `<score_column>_greater_than_threshold` into the caller's
table, overwriting columns of those names when present; every other
pre-existing column keeps its values, and no column beyond those two is
added. -/
theorem interval_scorer_frame_effect (df : Table) (label_column score_column : String)
    (θ : ℚ) :
    (∀ c : String, c ≠ "interval_no" → c ≠ score_column ++ "_greater_than_threshold" →
      getCol ((find_interval_score_df df label_column score_column θ).1) c
        = getCol df c) ∧
    (∀ c : String,
      c ∈ ((find_interval_score_df df label_column score_column θ).1).map Prod.fst ↔
        (c ∈ df.map Prod.fst ∨ c = "interval_no"
          ∨ c = score_column ++ "_greater_than_threshold")) := by
  constructor
  · intro c h1 h2
    show getCol (setCol (setCol df "interval_no" _) (score_column ++ "_greater_than_threshold") _) c = _
    rw [getCol_setCol_ne _ _ _ _ h2, getCol_setCol_ne _ _ _ _ h1]
  · intro c
    show c ∈ (setCol (setCol df "interval_no" _) (score_column ++ "_greater_than_threshold") _).map Prod.fst ↔ _
    rw [names_setCol, names_setCol]
    tauto

/-- Witness for C9's amended theorem: the `lab` column of a concrete table is
untouched by the scorer. -/
theorem interval_scorer_frame_effect_witness :
    getCol ((find_interval_score_df
        [("lab", [CellVal.bool true]), ("sc", [CellVal.num 1]),
          ("interval_no", [CellVal.num 99])] "lab" "sc" 0).1) "lab"
      = getCol [("lab", [CellVal.bool true]), ("sc", [CellVal.num 1]),
          ("interval_no", [CellVal.num 99])] "lab" :=
  (interval_scorer_frame_effect
    [("lab", [CellVal.bool true]), ("sc", [CellVal.num 1]),
      ("interval_no", [CellVal.num 99])] "lab" "sc" 0).1 "lab"
    (by decide) (by decide)

end TradingBot
